import Mathlib

/-!
# Verification of the telegram-listener detection-and-scoring pipeline

Shallow embedding of the core logic of the repository:

* `src/scoring/score_calculator.py`   — `ScoreCalculator.calculate`,
  `ScoreCalculator.calculate_channel_credibility`
* `src/database/models.py`            — `TrackedChannel.calculate_credibility`
* `src/processors/text_cleaner.py`    — `TextCleaner.clean`, `TextCleaner.is_valid_message`
* `src/processors/ca_detector.py`     — `CADetector.extract_addresses`,
  `CADetector.extract_first`, `CADetector.is_valid_address`
* `src/listener/message_handler.py`   — `MessageHandler.process_message`
* `src/database/repository.py`        — the repository operations the pipeline uses
* `src/services/price_monitor.py`     — `PriceMonitor._check_token` and the alert state

Modelling conventions:

* Python `str` is modelled as `List Char`; `None`-able strings as `Option (List Char)`.
* Python `float` arithmetic (market caps, confidences, the credibility ratio) is
  modelled as exact rational arithmetic over `ℚ`.  Python `int(x)` on a
  non-negative float is modelled as `Int.floor`.
* Python `datetime.utcnow()` is modelled by an explicit `now : ℕ` parameter
  threaded to every operation that stamps a row.
* Network calls (market-data fetch, LLM classification, current-price fetch) are
  modelled as explicit oracle parameters holding the call's result.
* The SQL store is modelled as in-memory lists of rows; the `UNIQUE` constraint
  on `tracked_contracts.contract_address` is enforced by the embedded
  `ContractRepository.create`, which fails with `DBError.uniqueViolation`
  exactly when a row with the same address is already present at insert time.
-/

deriving instance DecidableEq for Except

namespace TelegramListener

/-! ## Score calculator (`src/scoring/score_calculator.py`) -/

namespace ScoreCalculator

def BASE_SCORE : ℤ := 50

def EARLY_DISCOVERY_BONUS : ℤ := 10

def EARLY_DISCOVERY_THRESHOLD_SECONDS : ℤ := 60

def CREDIBILITY_BONUS : ℤ := 10

def CREDIBILITY_THRESHOLD : ℤ := 70

def HIGH_RISK_THRESHOLD : ℤ := 40

def MEDIUM_RISK_THRESHOLD : ℤ := 70

structure ScoreResult where
  score : ℤ
  risk_level : String
deriving DecidableEq, Repr

/-- `ScoreCalculator._calculate_risk_level`. -/
def calculate_risk_level (score : ℤ) : String :=
  if score < HIGH_RISK_THRESHOLD then "HIGH"
  else if score < MEDIUM_RISK_THRESHOLD then "MEDIUM"
  else "LOW"

/-- `ScoreCalculator.calculate` (`src/scoring/score_calculator.py`, lines 40–79). -/
def calculate (first_seen_delta_seconds : ℤ) (channel_credibility : ℤ) : ScoreResult :=
  let score0 := BASE_SCORE
  let score1 :=
    if first_seen_delta_seconds < EARLY_DISCOVERY_THRESHOLD_SECONDS then
      score0 + EARLY_DISCOVERY_BONUS
    else score0
  let score2 :=
    if channel_credibility > CREDIBILITY_THRESHOLD then
      score1 + CREDIBILITY_BONUS
    else score1
  let score := max 0 (min 100 score2)
  { score := score, risk_level := calculate_risk_level score }

/-- `ScoreCalculator.calculate_channel_credibility`
(`src/scoring/score_calculator.py`, lines 98–120).
Python computes `accuracy = (successful_calls / total_calls) * 100` in floating
point and then truncates with `int(accuracy)`; the float arithmetic is modelled
as exact rational arithmetic, and `int` as `Int.floor` (the quotient is
non-negative here, so floor and truncation agree). -/
def calculate_channel_credibility (total_calls successful_calls : ℕ) : ℤ :=
  if total_calls = 0 then 50
  else
    let accuracy : ℚ := ((successful_calls : ℚ) / (total_calls : ℚ)) * 100
    max 0 (min 100 ⌊accuracy⌋)

end ScoreCalculator

/-- `TrackedChannel.calculate_credibility` (`src/database/models.py`, lines 249–260);
identical arithmetic to `ScoreCalculator.calculate_channel_credibility` with the
clamps applied in the opposite order (`min(100, max(0, int(accuracy)))`). -/
def TrackedChannel.calculate_credibility (total_calls successful_calls : ℕ) : ℤ :=
  if total_calls = 0 then 50
  else
    let accuracy : ℚ := ((successful_calls : ℚ) / (total_calls : ℚ)) * 100
    min 100 (max 0 ⌊accuracy⌋)

/-! ## Text normalizer (`src/processors/text_cleaner.py`) -/

namespace TextCleaner

/-- Membership in the character class of `TextCleaner.EMOJI_PATTERN`: the union
of the codepoint ranges listed in `src/processors/text_cleaner.py`, lines 14–29. -/
def isEmojiChar (c : Char) : Bool :=
  decide ((0x1F600 ≤ c.toNat ∧ c.toNat ≤ 0x1F64F) ∨
          (0x1F300 ≤ c.toNat ∧ c.toNat ≤ 0x1F5FF) ∨
          (0x1F680 ≤ c.toNat ∧ c.toNat ≤ 0x1F6FF) ∨
          (0x1F1E0 ≤ c.toNat ∧ c.toNat ≤ 0x1F1FF) ∨
          (0x2702 ≤ c.toNat ∧ c.toNat ≤ 0x27B0) ∨
          (0x24C2 ≤ c.toNat ∧ c.toNat ≤ 0x1F251) ∨
          (0x1F900 ≤ c.toNat ∧ c.toNat ≤ 0x1F9FF) ∨
          (0x1FA00 ≤ c.toNat ∧ c.toNat ≤ 0x1FA6F) ∨
          (0x1FA70 ≤ c.toNat ∧ c.toNat ≤ 0x1FAFF) ∨
          (0x2600 ≤ c.toNat ∧ c.toNat ≤ 0x26FF) ∨
          (0x2700 ≤ c.toNat ∧ c.toNat ≤ 0x27BF))

/-- The whitespace class `\s` of `WHITESPACE_PATTERN`, modelled over its ASCII
members (space, tab, newline, vertical tab, form feed, carriage return). -/
def isSpaceChar (c : Char) : Bool :=
  decide (c = ' ' ∨ c = '\t' ∨ c = '\n' ∨ c = '\x0b' ∨ c = '\x0c' ∨ c = '\r')

/-- Whether a list starts with a character satisfying `p`. -/
def headIs (p : Char → Bool) : List Char → Bool
  | [] => false
  | c :: _ => p c

/-- `re.sub` for a pattern of the shape `[class]+` with a one-character
replacement: each maximal run of `p`-characters is replaced by the single
character `r`.  A `p`-character followed by another `p`-character is interior
to its run and contributes nothing; the last character of a run emits `r`. -/
def subRuns (p : Char → Bool) (r : Char) : List Char → List Char
  | [] => []
  | c :: cs =>
    if p c then
      if headIs p cs then subRuns p r cs else r :: subRuns p r cs
    else c :: subRuns p r cs

/-- Python `str.lstrip()` restricted to the modelled whitespace class. -/
def lstrip (l : List Char) : List Char := l.dropWhile isSpaceChar

/-- Python `str.rstrip()` restricted to the modelled whitespace class. -/
def rstrip (l : List Char) : List Char := (l.reverse.dropWhile isSpaceChar).reverse

/-- Python `str.strip()` restricted to the modelled whitespace class. -/
def strip (l : List Char) : List Char := rstrip (lstrip l)

/-- `TextCleaner.clean` (`src/processors/text_cleaner.py`, lines 34–57):
emoji runs to a single space, whitespace runs to a single space, then strip.
`none` models Python `None` (the `if not text` guard). -/
def clean (text : Option (List Char)) : List Char :=
  match text with
  | none => []
  | some t =>
    if t.isEmpty then []
    else strip (subRuns isSpaceChar ' ' (subRuns isEmojiChar ' ' t))

/-- Python `str.isalnum` modelled over ASCII letters and digits. -/
def isAlnumChar (c : Char) : Bool :=
  decide (('0' ≤ c ∧ c ≤ '9') ∨ ('A' ≤ c ∧ c ≤ 'Z') ∨ ('a' ≤ c ∧ c ≤ 'z'))

/-- `TextCleaner.is_valid_message` (`src/processors/text_cleaner.py`, lines 60–76). -/
def is_valid_message (text : Option (List Char)) : Bool :=
  match text with
  | none => false
  | some t =>
    if t.isEmpty then false
    else
      let cleaned := clean (some t)
      !cleaned.isEmpty && cleaned.any isAlnumChar

end TextCleaner

/-! ## Address detector (`src/processors/ca_detector.py`) -/

namespace CADetector

open TextCleaner (headIs)

/-- The character class `[1-9A-HJ-NP-Za-km-z]` of `SOLANA_CA_PATTERN`
(`src/processors/ca_detector.py`, line 20): the base58 alphabet, excluding
`0`, `O`, `I`, `l`. -/
def isBase58Char (c : Char) : Bool :=
  decide (('1' ≤ c ∧ c ≤ '9') ∨ ('A' ≤ c ∧ c ≤ 'H') ∨ ('J' ≤ c ∧ c ≤ 'N') ∨
          ('P' ≤ c ∧ c ≤ 'Z') ∨ ('a' ≤ c ∧ c ≤ 'k') ∨ ('m' ≤ c ∧ c ≤ 'z'))

/-- The word-character class underlying the `\b` anchors of
`SOLANA_CA_PATTERN`, modelled over ASCII (`[0-9A-Za-z_]`; the full regex `\b`
is Unicode-aware, but every character of the pattern's own alphabet and of the
exclusion set is ASCII). -/
def isWordChar (c : Char) : Bool :=
  decide (('0' ≤ c ∧ c ≤ '9') ∨ ('A' ≤ c ∧ c ≤ 'Z') ∨ ('a' ≤ c ∧ c ≤ 'z') ∨ c = '_')

/-- The maximal runs of `p`-characters of a list, in order of appearance.

`re.findall` with the pattern `\b[class]{32,44}\b` matches exactly those
maximal runs of word characters that consist entirely of class characters and
have length 32–44: both `\b` anchors sit at word/non-word transitions, every
class character is a word character, and the greedy quantifier with
backtracking either consumes a whole qualifying run or fails for that run.
`runs` computes the maximal runs; the length/alphabet filter is applied by
`SOLANA_CA_PATTERN_findall` below. -/
def runs (p : Char → Bool) : List Char → List (List Char)
  | [] => []
  | c :: cs =>
    if p c then
      if headIs p cs then
        match runs p cs with
        | r :: rest => (c :: r) :: rest
        | [] => [[c]]
      else [c] :: runs p cs
    else runs p cs

/-- The excluded system addresses (`src/processors/ca_detector.py`, lines 23–28). -/
def SYSTEM_ADDRESSES : List (List Char) :=
  ["So11111111111111111111111111111111111111112".toList,
   "11111111111111111111111111111111".toList,
   "TokenkegQfeZyiNwAJbNbGKPFXCWuBvf9Ss623VQ5DA".toList,
   "ATokenGPvbdGVxr1b2hvZbsiqW5xWH25efTNsLJA8knL".toList]

/-- `re.findall(SOLANA_CA_PATTERN, text)`: the maximal word-character runs of
`text` that consist entirely of base58 characters and have length 32–44 (see
the comment on `runs`). -/
def SOLANA_CA_PATTERN_findall (text : List Char) : List (List Char) :=
  (runs isWordChar text).filter
    (fun r => r.all isBase58Char && decide (32 ≤ r.length) && decide (r.length ≤ 44))

/-- The filter-and-deduplicate loop of `CADetector.extract_addresses`
(`src/processors/ca_detector.py`, lines 47–65): first occurrence wins, system
addresses and too-short matches are skipped, `seen` grows only on append. -/
def extractLoop : List (List Char) → List (List Char) → List (List Char)
  | _, [] => []
  | seen, addr :: rest =>
    if addr ∈ seen then extractLoop seen rest
    else if addr ∈ SYSTEM_ADDRESSES then extractLoop seen rest
    else if addr.length < 32 then extractLoop seen rest
    else addr :: extractLoop (addr :: seen) rest

/-- `CADetector.extract_addresses` (`src/processors/ca_detector.py`, lines 30–70). -/
def extract_addresses (text : List Char) : List (List Char) :=
  extractLoop [] (SOLANA_CA_PATTERN_findall text)

/-- `CADetector.extract_first` (`src/processors/ca_detector.py`, lines 72–84). -/
def extract_first (text : List Char) : Option (List Char) :=
  (extract_addresses text).head?

/-- `CADetector.is_valid_address` (`src/processors/ca_detector.py`,
lines 86–112): non-empty, length 32–44, full pattern match (every character in
the base58 class), and not a system address. -/
def is_valid_address (address : List Char) : Bool :=
  !address.isEmpty &&
    (decide (32 ≤ address.length) && decide (address.length ≤ 44)) &&
    address.all isBase58Char &&
    !decide (address ∈ SYSTEM_ADDRESSES)

end CADetector

/-! ## Data model and repositories
(`src/database/models.py`, `src/database/repository.py`) -/

/-- A row of `tracked_contracts` (`src/database/models.py`, lines 23–100).
Timestamps are abstract `ℕ` instants; floats are `ℚ`. -/
structure TrackedContract where
  contract_address : String
  first_seen_at : ℕ
  first_source_channel : String
  mention_count : ℕ
  score : ℤ
  risk_level : String
  classification : String
  llm_confidence : Option ℚ
  detected_mcap : Option ℚ
  token_symbol : Option String
  created_at : ℕ
  updated_at : ℕ
deriving DecidableEq, Repr

/-- A row of `tracked_channels` (`src/database/models.py`, lines 198–260). -/
structure TrackedChannelRow where
  username : String
  credibility_score : ℤ
  total_calls : ℕ
  successful_calls : ℕ
  is_active : Bool
  created_at : ℕ
  updated_at : ℕ
deriving DecidableEq, Repr

/-- The relational store: the two tables the ingestion pipeline touches. -/
structure DB where
  contracts : List TrackedContract
  channels : List TrackedChannelRow
deriving DecidableEq, Repr

/-- Storage-level failures surfaced to the pipeline; `uniqueViolation` models
an integrity error from the UNIQUE constraint on `contract_address`
(`src/database/models.py`, lines 36–41). -/
inductive DBError
  | uniqueViolation
deriving DecidableEq, Repr

namespace ContractRepository

/-- `ContractRepository.get_by_address` (`src/database/repository.py`,
lines 24–39). -/
def get_by_address (db : DB) (contract_address : String) : Option TrackedContract :=
  db.contracts.find? (fun c => c.contract_address == contract_address)

/-- `ContractRepository.create` (`src/database/repository.py`, lines 58–103):
inserts a fresh row with `mention_count = 1`; the flush enforces the UNIQUE
constraint on `contract_address` against the rows visible at insert time. -/
def create (db : DB) (contract_address : String) (source_channel : String)
    (score : ℤ) (risk_level : String) (classification : String)
    (confidence : Option ℚ) (detected_mcap : Option ℚ) (token_symbol : Option String)
    (now : ℕ) : Except DBError DB :=
  if db.contracts.any (fun c => c.contract_address == contract_address) then
    .error .uniqueViolation
  else
    .ok { db with contracts := db.contracts ++
      [{ contract_address := contract_address
         first_seen_at := now
         first_source_channel := source_channel
         mention_count := 1
         score := score
         risk_level := risk_level
         classification := classification
         llm_confidence := confidence
         detected_mcap := detected_mcap
         token_symbol := token_symbol
         created_at := now
         updated_at := now }] }

/-- `ContractRepository.increment_mention` (`src/database/repository.py`,
lines 105–128): bumps `mention_count` and refreshes `updated_at`. -/
def increment_mention (db : DB) (contract_address : String) (now : ℕ) : DB :=
  { db with contracts := db.contracts.map (fun c =>
      if c.contract_address == contract_address then
        { c with mention_count := c.mention_count + 1, updated_at := now }
      else c) }

end ContractRepository

namespace ChannelRepository

/-- `ChannelRepository.get_by_username` (`src/database/repository.py`,
lines 167–180). -/
def get_by_username (db : DB) (username : String) : Option TrackedChannelRow :=
  db.channels.find? (fun ch => ch.username == username)

/-- `ChannelRepository.get_or_create` (`src/database/repository.py`,
lines 194–218): returns the existing row or inserts a default one
(credibility 50, zero counters, active). -/
def get_or_create (db : DB) (username : String) (now : ℕ) : DB × TrackedChannelRow :=
  match get_by_username db username with
  | some ch => (db, ch)
  | none =>
    let ch : TrackedChannelRow :=
      { username := username, credibility_score := 50, total_calls := 0,
        successful_calls := 0, is_active := true, created_at := now, updated_at := now }
    ({ db with channels := db.channels ++ [ch] }, ch)

/-- `ChannelRepository.increment_call_count` (`src/database/repository.py`,
lines 220–234). -/
def increment_call_count (db : DB) (username : String) (now : ℕ) : DB :=
  { db with channels := db.channels.map (fun ch =>
      if ch.username == username then
        { ch with total_calls := ch.total_calls + 1, updated_at := now }
      else ch) }

end ChannelRepository

/-! ## Ingestion pipeline (`src/listener/message_handler.py`) -/

namespace MessageHandler

/-- Result of a successful `GroqClassifier.classify` call
(`src/classifier/groq_classifier.py`, lines 64–121): a label and a
confidence. -/
structure ClassificationResult where
  classification : String
  confidence : ℚ
deriving DecidableEq, Repr

/-- The dictionary returned by `MessageHandler.process_message`. -/
inductive PMResult
  | duplicate (contract_address : String) (mention_count : ℕ)
  | created (contract_address : String) (score : ℤ) (risk_level : String)
      (channel : String) (classification : String) (confidence : ℚ)
deriving DecidableEq, Repr

/-- `MessageHandler.process_message` (`src/listener/message_handler.py`,
lines 111–210).  The two network calls are oracle parameters: `fetch_result`
is the value of `fetch_token_info` (market cap, symbol) and
`classification_result` the value of `self.classifier.classify` (`none` models
a failed classification, from which the source returns `None`).  `concurrent`
holds rows committed by concurrent pipelines between this call's existence
check and its insert; the source has no handler for the resulting constraint
violation, so the embedded function propagates it as `Except.error`. -/
def process_message (channel : String) (raw_text : List Char)
    (fetch_result : Option ℚ × Option String)
    (classification_result : Option ClassificationResult)
    (concurrent : List TrackedContract)
    (now : ℕ) (db : DB) : Except DBError (DB × Option PMResult) :=
  -- Step 1: validate and clean text
  if TextCleaner.is_valid_message (some raw_text) then
    let cleaned := TextCleaner.clean (some raw_text)
    -- Step 2: detect first address
    match CADetector.extract_first cleaned with
    | none => .ok (db, none)
    | some addr =>
      let contract_address := String.mk addr
      -- Step 3: market data fetch (oracle result)
      let detected_mcap := fetch_result.1
      let token_symbol := fetch_result.2
      -- Step 4: classification; a failed call discards the message
      match classification_result with
      | none => .ok (db, none)
      | some cr =>
        -- Step 5: deduplicate or create
        match ContractRepository.get_by_address db contract_address with
        | some existing =>
          let db1 := ContractRepository.increment_mention db contract_address now
          .ok (db1, some (.duplicate contract_address (existing.mention_count + 1)))
        | none =>
          let pair := ChannelRepository.get_or_create db channel now
          let db1 := pair.1
          let credibility := pair.2.credibility_score
          let score_result := ScoreCalculator.calculate 0 credibility
          -- rows committed by concurrent pipelines become visible at the flush
          let db2 : DB := { db1 with contracts := db1.contracts ++ concurrent }
          match ContractRepository.create db2 contract_address channel
              score_result.score score_result.risk_level cr.classification
              (some cr.confidence) detected_mcap token_symbol now with
          | .error e => .error e
          | .ok db3 =>
            let db4 := ChannelRepository.increment_call_count db3 channel now
            .ok (db4, some (.created contract_address score_result.score
                score_result.risk_level channel cr.classification cr.confidence))
  else .ok (db, none)

/-- Sample 32-character base58 address used in concrete scenarios. -/
def sampleAddr : String := String.mk (List.replicate 32 'A')

/-- Sample raw message text containing the sample address. -/
def sampleRaw : List Char := "go ".toList ++ List.replicate 32 'A' ++ " now".toList

/-- A stored row for `sampleAddr`, first seen at instant 0. -/
def sampleRow : TrackedContract :=
  { contract_address := sampleAddr
    first_seen_at := 0
    first_source_channel := "first_chan"
    mention_count := 1
    score := 60
    risk_level := "MEDIUM"
    classification := "CALL"
    llm_confidence := none
    detected_mcap := some 50000
    token_symbol := some "$FOO"
    created_at := 0
    updated_at := 0 }

end MessageHandler

/-! ## Price monitor (`src/services/price_monitor.py`) -/

namespace PriceMonitor

/-- `PUMP_THRESHOLDS` (`src/services/price_monitor.py`, line 24). -/
def PUMP_THRESHOLDS : List ℚ := [1.25, 1.5, 2.0, 5.0, 10.0]

/-- `DUMP_THRESHOLDS` (`src/services/price_monitor.py`, line 28). -/
def DUMP_THRESHOLDS : List ℚ := [0.75, 0.5]

/-- A row of `price_alerts` (`src/database/models.py`, lines 120–179), as
populated by `AlertRepository.create` (`src/database/repository.py`,
lines 294–338). -/
structure PriceAlertRow where
  contract_address : String
  source : String
  source_name : String
  token_symbol : Option String
  entry_mcap : ℚ
  current_mcap : ℚ
  multiplier : ℚ
  threshold : ℚ
  is_read : Bool
deriving DecidableEq, Repr

/-- The monitor's state: the persisted `price_alerts` table plus the
process-local `_checked_thresholds` cache (`src/services/price_monitor.py`,
line 48). -/
structure MonitorState where
  alerts : List PriceAlertRow
  checked_thresholds : List (String × List ℚ)
deriving DecidableEq, Repr

/-- `AlertRepository.exists_for_threshold` (`src/database/repository.py`,
lines 389–411). -/
def exists_for_threshold (alerts : List PriceAlertRow) (contract_address : String)
    (threshold : ℚ) : Bool :=
  alerts.any (fun a => a.contract_address == contract_address && a.threshold == threshold)

/-- The cache lookup `self._checked_thresholds[contract_key]`, with a missing
key read as the empty list (ensured by `src/services/price_monitor.py`,
lines 125–127). -/
def cacheGet (cache : List (String × List ℚ)) (contract_address : String) : List ℚ :=
  match cache.find? (fun p => p.1 == contract_address) with
  | some p => p.2
  | none => []

/-- `self._checked_thresholds[contract_key].append(threshold)`. -/
def cacheAppend (cache : List (String × List ℚ)) (contract_address : String)
    (threshold : ℚ) : List (String × List ℚ) :=
  if cache.any (fun p => p.1 == contract_address) then
    cache.map (fun p => if p.1 == contract_address then (p.1, p.2 ++ [threshold]) else p)
  else cache ++ [(contract_address, [threshold])]

/-- The source-type / display-name computation of `PriceMonitor._create_alert`
(`src/services/price_monitor.py`, lines 166–173). -/
def sourceInfo (first_source_channel : String) : String × String :=
  if first_source_channel == "Auto Scanner" || first_source_channel.startsWith "kol_" then
    ("scanner", "Auto Scanner")
  else ("telegram", first_source_channel)

/-- The pump/dump trigger condition of the two threshold loops
(`src/services/price_monitor.py`, lines 130–131 and 143–144). -/
def condB (is_dump : Bool) (multiplier threshold : ℚ) : Bool :=
  if is_dump then decide (multiplier ≤ threshold) else decide (multiplier ≥ threshold)

/-- One threshold check of `PriceMonitor._check_token`
(`src/services/price_monitor.py`, lines 129–153), including the alert
creation of `_create_alert` (lines 158–205): skip silently when the trigger
condition fails or the in-memory cache already has the threshold; otherwise
consult the persisted existence check (caching a hit); only when both miss,
create the alert row and mark the cache. -/
def checkThreshold (contract : TrackedContract) (token_symbol : Option String)
    (entry current multiplier : ℚ) (is_dump : Bool) (st : MonitorState)
    (threshold : ℚ) : MonitorState :=
  if condB is_dump multiplier threshold then
    if threshold ∈ cacheGet st.checked_thresholds contract.contract_address then st
    else if exists_for_threshold st.alerts contract.contract_address threshold then
      { st with checked_thresholds :=
          cacheAppend st.checked_thresholds contract.contract_address threshold }
    else
      { alerts := st.alerts ++
          [{ contract_address := contract.contract_address
             source := (sourceInfo contract.first_source_channel).1
             source_name := (sourceInfo contract.first_source_channel).2
             token_symbol := token_symbol
             entry_mcap := entry
             current_mcap := current
             multiplier := multiplier
             threshold := threshold
             is_read := false }]
        checked_thresholds :=
          cacheAppend st.checked_thresholds contract.contract_address threshold }
  else st

/-- `PriceMonitor._check_token` (`src/services/price_monitor.py`,
lines 109–156).  `current_mcap` is the oracle result of `_fetch_current_mcap`
and `token_symbol` that of `_fetch_token_symbol`.  `_check_all_tokens` only
passes contracts with a positive `detected_mcap`; a contract without one is
returned unchanged here. -/
def check_token (contract : TrackedContract) (current_mcap : Option ℚ)
    (token_symbol : Option String) (st : MonitorState) : MonitorState :=
  match current_mcap with
  | none => st
  | some current =>
    if current ≤ 0 then st
    else
      match contract.detected_mcap with
      | none => st
      | some entry =>
        let multiplier := current / entry
        let st1 := PUMP_THRESHOLDS.foldl
          (checkThreshold contract token_symbol entry current multiplier false) st
        DUMP_THRESHOLDS.foldl
          (checkThreshold contract token_symbol entry current multiplier true) st1

/-- An external event affecting the alert store: one `_check_token` call of
some monitor cycle, or a process restart (which clears the in-memory cache
while the persisted alerts survive). -/
inductive MonitorEvent
  | check (contract : TrackedContract) (current_mcap : Option ℚ)
      (token_symbol : Option String)
  | restart

def applyEvent (st : MonitorState) : MonitorEvent → MonitorState
  | .check contract mcap sym => check_token contract mcap sym st
  | .restart => { alerts := st.alerts, checked_thresholds := [] }

/-- Any interleaving of token checks (across any number of cycles) and
process restarts. -/
def runEvents (st : MonitorState) (evs : List MonitorEvent) : MonitorState :=
  evs.foldl applyEvent st

/-- The (address, threshold) keys of the persisted alert rows. -/
def alertKeys (alerts : List PriceAlertRow) : List (String × ℚ) :=
  alerts.map (fun a => (a.contract_address, a.threshold))

/-- A threshold counts as already triggered for an address when a persisted
alert row exists or the in-memory cache holds it. -/
def Triggered (st : MonitorState) (contract_address : String) (threshold : ℚ) : Prop :=
  (contract_address, threshold) ∈ alertKeys st.alerts ∨
    threshold ∈ cacheGet st.checked_thresholds contract_address

instance (st : MonitorState) (a : String) (t : ℚ) : Decidable (Triggered st a t) := by
  rw [Triggered]; infer_instance

/-- The spec scenario token: entry value 10000. -/
def scenarioContract : TrackedContract :=
  { MessageHandler.sampleRow with detected_mcap := some 10000 }

end PriceMonitor

/-! ## Theorems -/

namespace TextCleaner

/-- Every character of `subRuns p r l` is either the replacement `r` or an
original character of `l` that does not satisfy `p`. -/
theorem mem_subRuns (p : Char → Bool) (r : Char) :
    ∀ l : List Char, ∀ c ∈ subRuns p r l, c = r ∨ (c ∈ l ∧ p c = false) := by
  intro l
  induction l with
  | nil => intro c hc; simp [subRuns] at hc
  | cons a cs ih =>
    intro c hc
    by_cases ha : p a = true
    · by_cases hh : headIs p cs = true
      · simp only [subRuns, ha, hh, if_true] at hc
        rcases ih c hc with h | ⟨hm, hp⟩
        · exact Or.inl h
        · exact Or.inr ⟨List.mem_cons_of_mem a hm, hp⟩
      · simp only [subRuns, ha, if_true, hh, if_false] at hc
        rcases List.mem_cons.mp hc with h | h
        · exact Or.inl h
        · rcases ih c h with h' | ⟨hm, hp⟩
          · exact Or.inl h'
          · exact Or.inr ⟨List.mem_cons_of_mem a hm, hp⟩
    · simp only [subRuns, ha, if_false] at hc
      rcases List.mem_cons.mp hc with h | h
      · subst h; exact Or.inr ⟨List.mem_cons_self c cs, Bool.eq_false_iff.mpr ha⟩
      · rcases ih c h with h' | ⟨hm, hp⟩
        · exact Or.inl h'
        · exact Or.inr ⟨List.mem_cons_of_mem a hm, hp⟩

/-- `subRuns` is the identity on lists with no `p`-character. -/
theorem subRuns_id (p : Char → Bool) (r : Char) :
    ∀ l : List Char, (∀ c ∈ l, p c = false) → subRuns p r l = l := by
  intro l
  induction l with
  | nil => intro _; rfl
  | cons a cs ih =>
    intro h
    have ha : p a = false := h a (List.mem_cons_self a cs)
    simp only [subRuns, ha, Bool.false_eq_true, if_false]
    rw [ih (fun c hc => h c (List.mem_cons_of_mem a hc))]

/-- The first character of `subRuns p r l` when `l` starts with a non-`p`
character. -/
theorem head_subRuns_not (p : Char → Bool) (r : Char) (d : Char) (cs : List Char)
    (hd : p d = false) : subRuns p r (d :: cs) = d :: subRuns p r cs := by
  simp [subRuns, hd]

/-- No two adjacent characters of `subRuns p r l` both satisfy `p`. -/
theorem chain_subRuns (p : Char → Bool) (r : Char) :
    ∀ l : List Char,
      (subRuns p r l).Chain' (fun a b => ¬(p a = true ∧ p b = true)) := by
  intro l
  induction l with
  | nil => simp [subRuns]
  | cons a cs ih =>
    by_cases ha : p a = true
    · by_cases hh : headIs p cs = true
      · simpa [subRuns, ha, hh] using ih
      · simp only [subRuns, ha, if_true, hh, if_false]
        refine List.chain'_cons'.mpr ⟨?_, ih⟩
        intro y hy
        match cs, hh with
        | [], _ => simp [subRuns] at hy
        | d :: cs', hh =>
          have hd : p d = false := by
            simpa [headIs] using hh
          rw [head_subRuns_not p r d cs' hd] at hy
          simp only [List.head?_cons, Option.mem_def, Option.some.injEq] at hy
          subst hy
          intro hcon
          rw [hd] at hcon
          exact Bool.false_ne_true hcon.2
    · simp only [subRuns, ha, if_false]
      refine List.chain'_cons'.mpr ⟨?_, ih⟩
      intro y _
      intro hcon
      exact ha hcon.1

/-- `subRuns` is the identity on lists in which every `p`-character is `r` and
no two adjacent characters satisfy `p`. -/
theorem subRuns_id_of_collapsed (p : Char → Bool) (r : Char) :
    ∀ l : List Char, (∀ c ∈ l, p c = true → c = r) →
      l.Chain' (fun a b => ¬(p a = true ∧ p b = true)) →
      subRuns p r l = l := by
  intro l
  induction l with
  | nil => intro _ _; rfl
  | cons a cs ih =>
    intro h1 h2
    have htail : cs.Chain' (fun a b => ¬(p a = true ∧ p b = true)) :=
      (List.chain'_cons'.mp h2).2
    have ihtail : subRuns p r cs = cs :=
      ih (fun c hc hp => h1 c (List.mem_cons_of_mem a hc) hp) htail
    by_cases ha : p a = true
    · have har : a = r := h1 a (List.mem_cons_self a cs) ha
      have hh : headIs p cs = false := by
        match cs with
        | [] => rfl
        | d :: cs' =>
          have := (List.chain'_cons'.mp h2).1 d (by simp)
          simp only [headIs]
          by_cases hd : p d = true
          · exact absurd ⟨ha, hd⟩ this
          · simpa using hd
      simp only [subRuns, ha, if_true, hh, Bool.false_eq_true, if_false, ihtail, har]
      split <;> rfl
    · simp only [subRuns, ha, Bool.false_eq_true, if_false, ihtail]

theorem rstrip_eq_rdropWhile (l : List Char) : rstrip l = List.rdropWhile isSpaceChar l := rfl

theorem strip_segment (l : List Char) : strip l <:+: l := by
  have h1 : lstrip l <:+ l := List.dropWhile_suffix _
  have h2 : strip l <+: lstrip l := by
    rw [strip, rstrip_eq_rdropWhile]
    exact List.rdropWhile_prefix _ _
  exact h2.isInfix.trans h1.isInfix

theorem head?_agree {l₁ l₂ : List Char} (h : l₁ <+: l₂) (hne : l₁ ≠ []) :
    l₁.head? = l₂.head? := by
  obtain ⟨t, rfl⟩ := h
  match l₁, hne with
  | c :: cs, _ => rfl

theorem strip_head_not (l : List Char) :
    ∀ c ∈ (strip l).head?, isSpaceChar c = false := by
  intro c hc
  have hne : strip l ≠ [] := by
    intro h; rw [h] at hc; simp at hc
  have hpre : strip l <+: lstrip l := by
    rw [strip, rstrip_eq_rdropWhile]; exact List.rdropWhile_prefix _ _
  have hlne : lstrip l ≠ [] := by
    intro h
    rw [h] at hpre
    exact hne (List.prefix_nil.mp hpre)
  have hhd := List.head_dropWhile_not isSpaceChar l hlne
  rw [head?_agree hpre hne, List.head?_eq_head hlne] at hc
  simp only [Option.mem_def, Option.some.injEq] at hc
  subst hc
  simpa using hhd

theorem strip_last_not (l : List Char) :
    ∀ c ∈ (strip l).getLast?, isSpaceChar c = false := by
  intro c hc
  have hne : strip l ≠ [] := by
    intro h; rw [h] at hc; simp at hc
  have hlast := List.rdropWhile_last_not (p := isSpaceChar) (l := lstrip l) hne
  rw [List.getLast?_eq_getLast _ hne] at hc
  simp only [Option.mem_def, Option.some.injEq] at hc
  subst hc
  simpa using hlast

theorem strip_id (l : List Char) (hh : ∀ c ∈ l.head?, isSpaceChar c = false)
    (hl : ∀ c ∈ l.getLast?, isSpaceChar c = false) : strip l = l := by
  have h1 : lstrip l = l := by
    match l, hh with
    | [], _ => rfl
    | c :: cs, hh =>
      have hc := hh c rfl
      simp [lstrip, List.dropWhile_cons, hc]
  rw [strip, h1, rstrip_eq_rdropWhile, List.rdropWhile_eq_self_iff]
  intro hne
  have := hl (l.getLast hne) (by rw [List.getLast?_eq_getLast _ hne]; rfl)
  simp [this]

/-- **C9.** The text normalizer is idempotent: for every input (including the
`None` and empty cases) `clean (clean x) = clean x`.  Determinism is immediate
since `clean` is a pure function of its input, and the normal form (pictographic
runs replaced by one space, whitespace runs collapsed, ends trimmed) is the
definition of `clean` itself. -/
theorem clean_idempotent (x : Option (List Char)) :
    clean (some (clean x)) = clean x := by
  rcases x with _ | t
  · simp [clean]
  · by_cases ht : t.isEmpty
    · simp [clean, ht]
    · have hcl : clean (some t) = strip (subRuns isSpaceChar ' ' (subRuns isEmojiChar ' ' t)) := by
        simp [clean, ht]
      rw [hcl]
      set y := strip (subRuns isSpaceChar ' ' (subRuns isEmojiChar ' ' t)) with hy
      by_cases hyE : y.isEmpty
      · simp only [clean, hyE, if_true]
        exact (List.isEmpty_iff.mp hyE).symm
      · simp only [clean, hyE, Bool.false_eq_true, if_false]
        have hmem : ∀ c ∈ y, c ∈ subRuns isSpaceChar ' ' (subRuns isEmojiChar ' ' t) :=
          fun c hc => (strip_segment _).sublist.subset hc
        have hNoEm : ∀ c ∈ y, isEmojiChar c = false := by
          intro c hc
          rcases mem_subRuns _ _ _ c (hmem c hc) with rfl | ⟨hc2, _⟩
          · decide
          · rcases mem_subRuns _ _ _ c hc2 with rfl | ⟨_, hem⟩
            · decide
            · exact hem
        rw [subRuns_id isEmojiChar ' ' y hNoEm]
        have hW1 : ∀ c ∈ y, isSpaceChar c = true → c = ' ' := by
          intro c hc hsp
          rcases mem_subRuns _ _ _ c (hmem c hc) with rfl | ⟨_, hns⟩
          · rfl
          · rw [hsp] at hns; cases hns
        have hW2 : y.Chain' (fun a b => ¬(isSpaceChar a = true ∧ isSpaceChar b = true)) :=
          List.Chain'.infix (chain_subRuns isSpaceChar ' ' _) (strip_segment _)
        rw [subRuns_id_of_collapsed isSpaceChar ' ' y hW1 hW2]
        exact strip_id y (by rw [hy]; exact strip_head_not _) (by rw [hy]; exact strip_last_not _)

end TextCleaner

namespace CADetector

open TextCleaner (headIs)

theorem isWordChar_of_isBase58Char {c : Char} (h : isBase58Char c = true) :
    isWordChar c = true := by
  simp only [isBase58Char, decide_eq_true_eq] at h
  simp only [isWordChar, decide_eq_true_eq]
  rcases h with h | h | h | h | h | h
  · exact Or.inl ⟨le_trans (by decide) h.1, h.2⟩
  · exact Or.inr (Or.inl ⟨h.1, le_trans h.2 (by decide)⟩)
  · exact Or.inr (Or.inl ⟨le_trans (by decide) h.1, le_trans h.2 (by decide)⟩)
  · exact Or.inr (Or.inl ⟨le_trans (by decide) h.1, h.2⟩)
  · exact Or.inr (Or.inr (Or.inl ⟨h.1, le_trans h.2 (by decide)⟩))
  · exact Or.inr (Or.inr (Or.inl ⟨le_trans (by decide) h.1, h.2⟩))

theorem runs_cons_neg (p : Char → Bool) (c : Char) (cs : List Char) (hc : p c = false) :
    runs p (c :: cs) = runs p cs := by
  simp [runs, hc]

theorem runs_cons_pos (p : Char → Bool) (c : Char) (cs : List Char) (hc : p c = true) :
    runs p (c :: cs) = (c :: cs.takeWhile p) :: runs p (cs.dropWhile p) := by
  induction cs generalizing c with
  | nil => simp [runs, headIs, hc]
  | cons d cs' ih =>
    have hstep : runs p (c :: d :: cs') =
        if p c = true then
          (if headIs p (d :: cs') = true then
            match runs p (d :: cs') with
            | r :: rest => (c :: r) :: rest
            | [] => [[c]]
          else [c] :: runs p (d :: cs'))
        else runs p (d :: cs') := rfl
    by_cases hd : p d = true
    · rw [hstep, if_pos hc, if_pos (show headIs p (d :: cs') = true from hd), ih d hd,
        List.takeWhile_cons_of_pos hd, List.dropWhile_cons_of_pos hd]
    · rw [hstep, if_pos hc, if_neg (show ¬(headIs p (d :: cs') = true) from hd),
        List.takeWhile_cons_of_neg hd, List.dropWhile_cons_of_neg hd]

theorem head?_dropWhile_false (p : Char → Bool) (l : List Char) :
    ∀ x ∈ (l.dropWhile p).head?, p x = false := by
  intro x hx
  have h := List.head?_dropWhile_not p l
  cases hh : (l.dropWhile p).head? with
  | none => rw [hh] at hx; cases hx
  | some y =>
    rw [hh] at hx h
    simp only [Option.mem_def, Option.some.injEq] at hx
    subst hx
    exact h

theorem takeWhile_eq_nil_of_head (p : Char → Bool) (post : List Char)
    (h : ∀ x ∈ post.head?, p x = false) : post.takeWhile p = [] := by
  match post with
  | [] => rfl
  | q :: post' =>
    have hq : p q = false := h q rfl
    simp [List.takeWhile_cons, hq]

theorem getLast?_dropWhile (p : Char → Bool) (l : List Char)
    (h : l.dropWhile p ≠ []) : (l.dropWhile p).getLast? = l.getLast? := by
  obtain ⟨t, ht⟩ := List.dropWhile_suffix (l := l) p
  conv_rhs => rw [← ht]
  rw [List.getLast?_append, List.getLast?_eq_getLast _ h]
  rfl

theorem boundary_cons {p : Char → Bool} {c : Char} {pre : List Char}
    (hc : p c = false) (hpre : ∀ x ∈ pre.getLast?, p x = false) :
    ∀ x ∈ (c :: pre).getLast?, p x = false := by
  match pre with
  | [] =>
    intro x hx
    simp only [List.getLast?_singleton, Option.mem_def, Option.some.injEq] at hx
    subst hx; exact hc
  | d :: pre' =>
    rw [List.getLast?_cons_cons]
    exact hpre

/-- Characterization of run membership: `w` is one of the maximal `p`-runs of
`l` iff `w` is a non-empty all-`p` segment of `l` whose neighbouring
characters (if any) do not satisfy `p`. -/
theorem mem_runs_iff_aux (p : Char → Bool) :
    ∀ (N : ℕ) (l : List Char), l.length ≤ N → ∀ w : List Char,
      (w ∈ runs p l ↔
        w ≠ [] ∧ (∀ c ∈ w, p c = true) ∧
          ∃ pre post, l = pre ++ w ++ post ∧
            (∀ c ∈ pre.getLast?, p c = false) ∧ (∀ c ∈ post.head?, p c = false)) := by
  intro N
  induction N with
  | zero =>
    intro l hl w
    have hnil : l = [] := List.length_eq_zero.mp (Nat.le_zero.mp hl)
    subst hnil
    constructor
    · intro h; simp [runs] at h
    · rintro ⟨hne, _, pre, post, habs, _, _⟩
      have hlen := congrArg List.length habs
      simp only [List.length_nil, List.length_append] at hlen
      have hw0 : w.length ≠ 0 := fun h0 => hne (List.length_eq_zero.mp h0)
      omega
  | succ N ihN =>
    intro l hl w
    match l with
    | [] =>
      constructor
      · intro h; simp [runs] at h
      · rintro ⟨hne, _, pre, post, habs, _, _⟩
        have hlen := congrArg List.length habs
        simp only [List.length_nil, List.length_append] at hlen
        have hw0 : w.length ≠ 0 := fun h0 => hne (List.length_eq_zero.mp h0)
        omega
    | c :: cs =>
      have hlcs : cs.length ≤ N := by
        simp only [List.length_cons] at hl; omega
      by_cases hc : p c = true
      · rw [runs_cons_pos p c cs hc]
        constructor
        · intro hw
          rcases List.mem_cons.mp hw with hweq | hw'
          · subst hweq
            refine ⟨by simp, ?_, [], cs.dropWhile p, ?_, ?_, ?_⟩
            · intro x hx
              rcases List.mem_cons.mp hx with rfl | hx'
              · exact hc
              · exact List.all_eq_true.mp (List.all_takeWhile (p := p) (l := cs)) x hx'
            · simp
            · intro x hx; cases hx
            · exact head?_dropWhile_false p cs
          · have hlen2 : (cs.dropWhile p).length ≤ N :=
              le_trans (List.dropWhile_sublist p).length_le hlcs
            obtain ⟨hne, hall, pre, post, hdec, hpre, hpost⟩ := (ihN _ hlen2 w).mp hw'
            refine ⟨hne, hall, (c :: cs.takeWhile p) ++ pre, post, ?_, ?_, hpost⟩
            · rw [List.append_assoc, List.append_assoc, ← List.append_assoc pre,
                ← hdec, List.cons_append, List.takeWhile_append_dropWhile]
            · match pre, hpre, hdec with
              | [], _, hdec =>
                exfalso
                match w, hne, hall with
                | x :: w', _, hall =>
                  have hx : p x = true := hall x (List.mem_cons_self x w')
                  have hhd : (cs.dropWhile p).head? = some x := by rw [hdec]; simp
                  have hfalse := head?_dropWhile_false p cs x (by rw [hhd]; rfl)
                  rw [hx] at hfalse; cases hfalse
              | q :: pre', hpre, _ =>
                intro x hx
                rw [List.getLast?_append] at hx
                have hsome : (q :: pre').getLast? = some ((q :: pre').getLast (by simp)) :=
                  List.getLast?_eq_getLast _ (by simp)
                rw [hsome] at hx
                simp only [Option.or_some, Option.mem_def, Option.some.injEq] at hx
                subst hx
                exact hpre _ (by rw [hsome]; rfl)
        · rintro ⟨hne, hall, pre, post, hdec, hpre, hpost⟩
          match pre, hpre, hdec with
          | [], _, hdec =>
            match w, hne, hall with
            | x :: w', _, hall =>
              simp only [List.nil_append, List.cons_append, List.cons.injEq] at hdec
              obtain ⟨hxc, hcs⟩ := hdec
              subst hxc
              have hw' : ∀ y ∈ w', p y = true := fun y hy => hall y (List.mem_cons_of_mem _ hy)
              have htw : cs.takeWhile p = w' := by
                rw [hcs, List.takeWhile_append_of_pos hw',
                  takeWhile_eq_nil_of_head p post hpost, List.append_nil]
              rw [htw]
              exact List.mem_cons_self _ _
          | q :: pre', hpre, hdec =>
            simp only [List.cons_append, List.cons.injEq] at hdec
            obtain ⟨hqc, hcs⟩ := hdec
            subst hqc
            match pre', hpre, hcs with
            | [], hpre, hcs =>
              exfalso
              have hcf := hpre c (by rw [List.getLast?_singleton]; rfl)
              rw [hc] at hcf; cases hcf
            | r :: pre'', hpre, hcs =>
              have hpre2 : ∀ x ∈ (r :: pre'').getLast?, p x = false := by
                intro x hx; exact hpre x (by rw [List.getLast?_cons_cons]; exact hx)
              have hne2 : (r :: pre'').dropWhile p ≠ [] := by
                intro h0
                have hall2 := List.dropWhile_eq_nil_iff.mp h0
                have hlast := hpre2 ((r :: pre'').getLast (by simp))
                  (by rw [List.getLast?_eq_getLast _ (by simp)]; rfl)
                have hlastp := hall2 _ (List.getLast_mem (l := r :: pre'') (by simp))
                rw [hlast] at hlastp; cases hlastp
              have hdw : cs.dropWhile p = (r :: pre'').dropWhile p ++ (w ++ post) := by
                rw [hcs, List.append_assoc, List.dropWhile_append,
                  if_neg (by simpa using hne2)]
              have hlen2 : (cs.dropWhile p).length ≤ N :=
                le_trans (List.dropWhile_sublist p).length_le hlcs
              have hmem2 : w ∈ runs p (cs.dropWhile p) := by
                rw [ihN _ hlen2 w]
                refine ⟨hne, hall, (r :: pre'').dropWhile p, post,
                  by rw [hdw, List.append_assoc], ?_, hpost⟩
                rw [getLast?_dropWhile p (r :: pre'') hne2]
                exact hpre2
              exact List.mem_cons_of_mem _ hmem2
      · have hc' : p c = false := by simpa using hc
        rw [runs_cons_neg p c cs hc', ihN cs hlcs w]
        constructor
        · rintro ⟨hne, hall, pre, post, hdec, hpre, hpost⟩
          exact ⟨hne, hall, c :: pre, post, by simp [hdec],
            boundary_cons hc' hpre, hpost⟩
        · rintro ⟨hne, hall, pre, post, hdec, hpre, hpost⟩
          match pre, hpre, hdec with
          | [], _, hdec =>
            exfalso
            match w, hne, hall with
            | x :: w', _, hall =>
              simp only [List.nil_append, List.cons_append, List.cons.injEq] at hdec
              obtain ⟨hxc, _⟩ := hdec
              subst hxc
              have := hall c (List.mem_cons_self _ _)
              rw [hc'] at this; cases this
          | q :: pre', hpre, hdec =>
            simp only [List.cons_append, List.cons.injEq] at hdec
            obtain ⟨hqc, hcs⟩ := hdec
            refine ⟨hne, hall, pre', post, hcs, ?_, hpost⟩
            match pre', hpre with
            | [], _ => intro x hx; cases hx
            | d :: pre'', hpre =>
              intro x hx
              exact hpre x (by rw [List.getLast?_cons_cons]; exact hx)

theorem mem_runs_iff (p : Char → Bool) (l w : List Char) :
    w ∈ runs p l ↔
      w ≠ [] ∧ (∀ c ∈ w, p c = true) ∧
        ∃ pre post, l = pre ++ w ++ post ∧
          (∀ c ∈ pre.getLast?, p c = false) ∧ (∀ c ∈ post.head?, p c = false) :=
  mem_runs_iff_aux p l.length l le_rfl w

theorem extractLoop_subset :
    ∀ (ms seen : List (List Char)), ∀ a ∈ extractLoop seen ms,
      a ∈ ms ∧ a ∉ SYSTEM_ADDRESSES := by
  intro ms
  induction ms with
  | nil => intro seen a ha; simp [extractLoop] at ha
  | cons b rest ih =>
    intro seen a ha
    by_cases hs : b ∈ seen
    · simp only [extractLoop, if_pos hs] at ha
      obtain ⟨h1, h2⟩ := ih seen a ha
      exact ⟨List.mem_cons_of_mem _ h1, h2⟩
    · by_cases hsys : b ∈ SYSTEM_ADDRESSES
      · simp only [extractLoop, if_neg hs, if_pos hsys] at ha
        obtain ⟨h1, h2⟩ := ih seen a ha
        exact ⟨List.mem_cons_of_mem _ h1, h2⟩
      · by_cases hlen : b.length < 32
        · simp only [extractLoop, if_neg hs, if_neg hsys, if_pos hlen] at ha
          obtain ⟨h1, h2⟩ := ih seen a ha
          exact ⟨List.mem_cons_of_mem _ h1, h2⟩
        · simp only [extractLoop, if_neg hs, if_neg hsys, if_neg hlen] at ha
          rcases List.mem_cons.mp ha with rfl | ha'
          · exact ⟨List.mem_cons_self _ _, hsys⟩
          · obtain ⟨h1, h2⟩ := ih (b :: seen) a ha'
            exact ⟨List.mem_cons_of_mem _ h1, h2⟩

theorem mem_extractLoop :
    ∀ (ms seen : List (List Char)) (a : List Char),
      a ∈ ms → a ∉ SYSTEM_ADDRESSES → ¬(a.length < 32) →
      a ∈ extractLoop seen ms ∨ a ∈ seen := by
  intro ms
  induction ms with
  | nil => intro seen a ha _ _; cases ha
  | cons b rest ih =>
    intro seen a ha hsys hlen
    by_cases hs : b ∈ seen
    · simp only [extractLoop, if_pos hs]
      rcases List.mem_cons.mp ha with rfl | ha'
      · exact Or.inr hs
      · exact ih seen a ha' hsys hlen
    · by_cases hbsys : b ∈ SYSTEM_ADDRESSES
      · simp only [extractLoop, if_neg hs, if_pos hbsys]
        rcases List.mem_cons.mp ha with rfl | ha'
        · exact absurd hbsys hsys
        · exact ih seen a ha' hsys hlen
      · by_cases hblen : b.length < 32
        · simp only [extractLoop, if_neg hs, if_neg hbsys, if_pos hblen]
          rcases List.mem_cons.mp ha with rfl | ha'
          · exact absurd hblen hlen
          · exact ih seen a ha' hsys hlen
        · simp only [extractLoop, if_neg hs, if_neg hbsys, if_neg hblen]
          rcases List.mem_cons.mp ha with rfl | ha'
          · exact Or.inl (List.mem_cons_self _ _)
          · rcases ih (b :: seen) a ha' hsys hlen with h | h
            · exact Or.inl (List.mem_cons_of_mem _ h)
            · rcases List.mem_cons.mp h with rfl | h'
              · exact Or.inl (List.mem_cons_self _ _)
              · exact Or.inr h'

/-- **C6.** Every length-32–44 string over the base58 alphabet that is not a
system address is accepted by `is_valid_address` and is returned by
`extract_addresses` whenever it occurs in text bounded by word boundaries;
system addresses are never returned; and a text without any maximal base58 run
of length 32–44 yields no match (`extract_addresses` empty, `extract_first`
none). -/
theorem extract_addresses_spec (text s : List Char) :
    (32 ≤ s.length → s.length ≤ 44 → (∀ c ∈ s, isBase58Char c = true) →
      s ∉ SYSTEM_ADDRESSES →
      is_valid_address s = true ∧
        ∀ pre post, text = pre ++ s ++ post →
          (∀ c ∈ pre.getLast?, isWordChar c = false) →
          (∀ c ∈ post.head?, isWordChar c = false) →
          s ∈ extract_addresses text) ∧
    (∀ a ∈ extract_addresses text, a ∉ SYSTEM_ADDRESSES) ∧
    ((∀ r ∈ runs isBase58Char text, ¬(32 ≤ r.length ∧ r.length ≤ 44)) →
      extract_addresses text = [] ∧ extract_first text = none) := by
  refine ⟨?_, ?_, ?_⟩
  · intro h32 h44 hb58 hsys
    have hne : s ≠ [] := by
      intro h; rw [h] at h32; simp at h32
    constructor
    · have h1 : s.isEmpty = false := by
        cases s with
        | nil => exact absurd rfl hne
        | cons a l => rfl
      simp [is_valid_address, h1, h32, h44, List.all_eq_true, hsys]
      exact hb58
    · intro pre post hdec hpre hpost
      have hword : ∀ c ∈ s, isWordChar c = true :=
        fun c hc => isWordChar_of_isBase58Char (hb58 c hc)
      have hmem : s ∈ runs isWordChar text := by
        rw [mem_runs_iff]
        exact ⟨hne, hword, pre, post, hdec, hpre, hpost⟩
      have hfind : s ∈ SOLANA_CA_PATTERN_findall text := by
        rw [SOLANA_CA_PATTERN_findall, List.mem_filter]
        refine ⟨hmem, ?_⟩
        simp [List.all_eq_true, h32, h44]
        exact hb58
      rcases mem_extractLoop (SOLANA_CA_PATTERN_findall text) [] s hfind hsys
        (by omega) with h | h
      · exact h
      · cases h
  · intro a ha
    exact (extractLoop_subset _ _ a ha).2
  · intro H
    have hnilf : SOLANA_CA_PATTERN_findall text = [] := by
      rw [SOLANA_CA_PATTERN_findall, List.filter_eq_nil_iff]
      intro w hw hcond
      simp only [Bool.and_eq_true, decide_eq_true_eq, List.all_eq_true] at hcond
      obtain ⟨⟨hball, h32⟩, h44⟩ := hcond
      rw [mem_runs_iff] at hw
      obtain ⟨hne, hwall, pre, post, hdec, hpre, hpost⟩ := hw
      have hmem58 : w ∈ runs isBase58Char text := by
        rw [mem_runs_iff]
        refine ⟨hne, hball, pre, post, hdec, ?_, ?_⟩
        · intro x hx
          have hxw := hpre x hx
          cases hb : isBase58Char x
          · rfl
          · rw [isWordChar_of_isBase58Char hb] at hxw; cases hxw
        · intro x hx
          have hxw := hpost x hx
          cases hb : isBase58Char x
          · rfl
          · rw [isWordChar_of_isBase58Char hb] at hxw; cases hxw
      exact H w hmem58 ⟨h32, h44⟩
    have h1 : extract_addresses text = [] := by
      rw [extract_addresses, hnilf]; rfl
    exact ⟨h1, by rw [extract_first, h1]; rfl⟩

/-- Witness for `extract_addresses_spec`: the 32-character base58 string
`AAAA…A` inside `"go …A… now"` is valid and extracted; a plain text yields no
match. -/
theorem extract_addresses_spec_witness :
    is_valid_address (List.replicate 32 'A') = true ∧
      List.replicate 32 'A' ∈
        extract_addresses ("go ".toList ++ List.replicate 32 'A' ++ " now".toList) := by
  have h := (extract_addresses_spec
      ("go ".toList ++ List.replicate 32 'A' ++ " now".toList)
      (List.replicate 32 'A')).1 (by decide) (by decide) (by decide) (by decide)
  exact ⟨h.1, h.2 "go ".toList " now".toList rfl (by decide) (by decide)⟩

end CADetector

namespace ContractRepository

theorem create_error_of_mem (db : DB) (ca source : String) (score : ℤ)
    (risk cls : String) (conf mcap : Option ℚ) (sym : Option String) (now : ℕ)
    (h : db.contracts.any (fun c => c.contract_address == ca) = true) :
    create db ca source score risk cls conf mcap sym now = .error .uniqueViolation := by
  rw [create, if_pos h]

end ContractRepository

namespace ChannelRepository

theorem get_or_create_contracts (db : DB) (username : String) (now : ℕ) :
    (get_or_create db username now).1.contracts = db.contracts := by
  rw [get_or_create]
  cases get_by_username db username <;> rfl

end ChannelRepository

namespace MessageHandler

/-- **C8.** If classification fails (the classifier returns no result),
`process_message` discards the message and performs no storage write: the
store is returned unchanged and the result is `none` — even when a valid
address was detected in the message (the storage block is only reached after a
successful classification). -/
theorem process_message_classify_failure (channel : String) (raw_text : List Char)
    (fetch_result : Option ℚ × Option String) (concurrent : List TrackedContract)
    (now : ℕ) (db : DB) :
    process_message channel raw_text fetch_result none concurrent now db =
      .ok (db, none) := by
  simp only [process_message]
  split
  · split <;> rfl
  · rfl

/-- Counterexample to **C1** as stated: with no row present at the existence
check and a concurrent pipeline's row for the same address committed before
the insert, `process_message` surfaces the uniqueness-constraint failure as a
hard error instead of converting it into the duplicate/increment path. -/
theorem process_message_race_counterexample :
    process_message "chanB" sampleRaw (none, none)
      (some { classification := "CALL", confidence := 9/10 })
      [sampleRow] 7 { contracts := [], channels := [] } =
      .error .uniqueViolation := by decide

/-- **C1 (amended).** When a concurrent pipeline stored the same address
between `process_message`'s existence check and its insert, the insert's
duplicate-key violation is **not** caught: it propagates as a hard error, and
no mention-count increment or `"duplicate"` result is produced. -/
theorem process_message_race_propagates (channel : String) (raw_text : List Char)
    (fetch_result : Option ℚ × Option String) (cr : ClassificationResult)
    (concurrent : List TrackedContract) (now : ℕ) (db : DB) (addr : List Char)
    (hvalid : TextCleaner.is_valid_message (some raw_text) = true)
    (hextract : CADetector.extract_first (TextCleaner.clean (some raw_text)) = some addr)
    (hmiss : ContractRepository.get_by_address db (String.mk addr) = none)
    (hconc : ∃ r ∈ concurrent, r.contract_address = String.mk addr) :
    process_message channel raw_text fetch_result (some cr) concurrent now db =
      .error .uniqueViolation := by
  have hany : ((ChannelRepository.get_or_create db channel now).1.contracts ++
      concurrent).any (fun c => c.contract_address == String.mk addr) = true := by
    rw [List.any_append]
    obtain ⟨r, hr, hra⟩ := hconc
    have h2 : concurrent.any (fun c => c.contract_address == String.mk addr) = true := by
      rw [List.any_eq_true]
      exact ⟨r, hr, by simp [hra]⟩
    rw [h2, Bool.or_true]
  simp only [process_message, hvalid, if_true, hextract, hmiss]
  rw [ContractRepository.create_error_of_mem _ _ _ _ _ _ _ _ _ _ hany]

/-- Witness for `process_message_race_propagates` at the concrete race
scenario. -/
theorem process_message_race_propagates_witness :
    TextCleaner.is_valid_message (some sampleRaw) = true ∧
    process_message "chanB" sampleRaw (none, none)
        (some { classification := "CALL", confidence := 9/10 })
        [sampleRow] 7 { contracts := [], channels := [] } =
      .error .uniqueViolation :=
  ⟨by decide,
    process_message_race_propagates "chanB" sampleRaw (none, none)
      { classification := "CALL", confidence := 9/10 } [sampleRow] 7
      { contracts := [], channels := [] } (List.replicate 32 'A')
      (by decide) (by decide) (by decide)
      ⟨sampleRow, List.mem_cons_self _ _, by decide⟩⟩

/-- Counterexample to **C7** as stated: on a repeat detection the duplicate
path increments the mention count by exactly 1 but also rewrites the row's
`updated_at` timestamp (0 becomes 5 here), so "every other field of the
record is unchanged" is false as stated. -/
theorem process_message_duplicate_updates_timestamp :
    (process_message "chanB" sampleRaw (none, none)
        (some { classification := "CALL", confidence := 1/2 }) [] 5
        { contracts := [sampleRow], channels := [] }).toOption.map
      (fun p => p.1.contracts.map (fun c => (c.mention_count, c.updated_at)))
      = some [(2, 5)] ∧
    sampleRow.mention_count = 1 ∧ sampleRow.updated_at = 0 := by decide

/-- **C7 (amended).** When the detected address already has a row,
`process_message` never creates a second row: it returns the
duplicate/increment result, the number of rows and the channels table are
unchanged, every row for a different address is untouched, and the matched
row changes only its mention count (by exactly 1) and its `updated_at`
timestamp — in particular first-source-channel and entry market value are
unchanged. -/
theorem process_message_duplicate_frame (channel : String) (raw_text : List Char)
    (fetch_result : Option ℚ × Option String) (cr : ClassificationResult)
    (concurrent : List TrackedContract) (now : ℕ) (db : DB) (addr : List Char)
    (ex : TrackedContract)
    (hvalid : TextCleaner.is_valid_message (some raw_text) = true)
    (hextract : CADetector.extract_first (TextCleaner.clean (some raw_text)) = some addr)
    (hex : ContractRepository.get_by_address db (String.mk addr) = some ex) :
    process_message channel raw_text fetch_result (some cr) concurrent now db =
      .ok (ContractRepository.increment_mention db (String.mk addr) now,
        some (.duplicate (String.mk addr) (ex.mention_count + 1))) ∧
    (ContractRepository.increment_mention db (String.mk addr) now).contracts.length
        = db.contracts.length ∧
    (ContractRepository.increment_mention db (String.mk addr) now).channels
        = db.channels ∧
    (∀ c ∈ db.contracts, c.contract_address ≠ String.mk addr →
      c ∈ (ContractRepository.increment_mention db (String.mk addr) now).contracts) ∧
    (∀ c ∈ db.contracts, c.contract_address = String.mk addr →
      { c with mention_count := c.mention_count + 1, updated_at := now }
        ∈ (ContractRepository.increment_mention db (String.mk addr) now).contracts) := by
  refine ⟨?_, ?_, rfl, ?_, ?_⟩
  · simp only [process_message, hvalid, if_true, hextract, hex]
  · simp [ContractRepository.increment_mention]
  · intro c hc hne
    have hsame : (if c.contract_address == String.mk addr then
        { c with mention_count := c.mention_count + 1, updated_at := now } else c) = c := by
      rw [if_neg]
      simp [hne]
    rw [ContractRepository.increment_mention]
    exact hsame ▸ List.mem_map_of_mem _ hc
  · intro c hc heq
    have hsame : (if c.contract_address == String.mk addr then
        { c with mention_count := c.mention_count + 1, updated_at := now } else c) =
        { c with mention_count := c.mention_count + 1, updated_at := now } := by
      rw [if_pos]
      simp [heq]
    rw [ContractRepository.increment_mention]
    exact hsame ▸ List.mem_map_of_mem _ hc

/-- Witness for `process_message_duplicate_frame` at the concrete repeat
detection (different source channel, processing time 5). -/
theorem process_message_duplicate_frame_witness :
    TextCleaner.is_valid_message (some sampleRaw) = true ∧
    process_message "chanB" sampleRaw (none, none)
        (some { classification := "CALL", confidence := 1/2 }) [] 5
        { contracts := [sampleRow], channels := [] } =
      .ok (ContractRepository.increment_mention
          { contracts := [sampleRow], channels := [] } sampleAddr 5,
        some (.duplicate sampleAddr 2)) :=
  ⟨by decide,
    (process_message_duplicate_frame "chanB" sampleRaw (none, none)
      { classification := "CALL", confidence := 1/2 } [] 5
      { contracts := [sampleRow], channels := [] } (List.replicate 32 'A')
      sampleRow (by decide) (by decide) (by decide)).1⟩

end MessageHandler

namespace PriceMonitor

theorem exists_for_threshold_iff (alerts : List PriceAlertRow) (addr : String) (t : ℚ) :
    exists_for_threshold alerts addr t = true ↔ (addr, t) ∈ alertKeys alerts := by
  rw [exists_for_threshold, List.any_eq_true]
  constructor
  · rintro ⟨a, ha, hab⟩
    simp only [Bool.and_eq_true, beq_iff_eq] at hab
    rw [alertKeys, List.mem_map]
    exact ⟨a, ha, by rw [hab.1, hab.2]⟩
  · intro h
    rw [alertKeys, List.mem_map] at h
    obtain ⟨a, ha, hae⟩ := h
    refine ⟨a, ha, ?_⟩
    simp only [Bool.and_eq_true, beq_iff_eq]
    rw [Prod.mk.injEq] at hae
    exact hae

theorem find?_map_cacheApp (rest : List (String × List ℚ)) (addr : String) (t : ℚ) :
    (rest.map (fun p => if p.1 == addr then (p.1, p.2 ++ [t]) else p)).find?
        (fun p => p.1 == addr) =
      (rest.find? (fun p => p.1 == addr)).map (fun p => (p.1, p.2 ++ [t])) := by
  induction rest with
  | nil => rfl
  | cons q rest ih =>
    by_cases hq : (q.1 == addr) = true
    · have hfq : (if q.1 == addr then (q.1, q.2 ++ [t]) else q) = (q.1, q.2 ++ [t]) :=
        if_pos hq
      rw [List.map_cons, hfq]
      rw [@List.find?_cons_of_pos _ (fun p => p.1 == addr) (q.1, q.2 ++ [t]) _ hq]
      rw [@List.find?_cons_of_pos _ (fun p => p.1 == addr) q _ hq]
      rfl
    · have hfq : (if q.1 == addr then (q.1, q.2 ++ [t]) else q) = q := if_neg hq
      rw [List.map_cons, hfq]
      rw [@List.find?_cons_of_neg _ (fun p => p.1 == addr) q _ hq]
      rw [@List.find?_cons_of_neg _ (fun p => p.1 == addr) q _ hq]
      rw [ih]

theorem cacheGet_cacheAppend_same (cache : List (String × List ℚ))
    (addr : String) (t : ℚ) :
    cacheGet (cacheAppend cache addr t) addr = cacheGet cache addr ++ [t] := by
  rw [cacheAppend]
  by_cases hany : (cache.any fun p => p.1 == addr) = true
  · rw [if_pos hany, cacheGet, find?_map_cacheApp, cacheGet]
    cases hf : cache.find? (fun p => p.1 == addr) with
    | some p => simp
    | none =>
      exfalso
      rw [List.any_eq_true] at hany
      obtain ⟨p, hp, hpa⟩ := hany
      exact List.find?_eq_none.mp hf p hp hpa
  · rw [if_neg hany, cacheGet, cacheGet, List.find?_append]
    cases hf : cache.find? (fun p => p.1 == addr) with
    | some p =>
      exfalso
      have hmem := List.mem_of_find?_eq_some hf
      have hps := List.find?_some hf
      exact hany (List.any_eq_true.mpr ⟨p, hmem, hps⟩)
    | none => simp

theorem checkThreshold_nodup (contract : TrackedContract) (tok : Option String)
    (entry current multiplier : ℚ) (is_dump : Bool) (st : MonitorState) (t : ℚ)
    (h : (alertKeys st.alerts).Nodup) :
    (alertKeys
      (checkThreshold contract tok entry current multiplier is_dump st t).alerts).Nodup := by
  rw [checkThreshold]
  split
  · split
    · exact h
    · split
      · exact h
      · rename_i hcond hcache hex
        have hnot : (contract.contract_address, t) ∉ alertKeys st.alerts := by
          intro hmem
          exact hex ((exists_for_threshold_iff _ _ _).mpr hmem)
        simp only [alertKeys, List.map_append, List.map_cons, List.map_nil]
        rw [List.nodup_append]
        refine ⟨h, by simp, ?_⟩
        intro a ha hb
        simp only [List.mem_cons, List.not_mem_nil, or_false] at hb
        subst hb
        exact hnot ha
  · exact h

theorem foldl_checkThreshold_nodup (contract : TrackedContract) (tok : Option String)
    (entry current multiplier : ℚ) (is_dump : Bool) :
    ∀ (ts : List ℚ) (st : MonitorState), (alertKeys st.alerts).Nodup →
      (alertKeys ((ts.foldl
        (checkThreshold contract tok entry current multiplier is_dump) st).alerts)).Nodup := by
  intro ts
  induction ts with
  | nil => intro st h; exact h
  | cons a ts ih =>
    intro st h
    exact ih _ (checkThreshold_nodup contract tok entry current multiplier is_dump st a h)

theorem check_token_nodup (contract : TrackedContract) (mcap : Option ℚ)
    (sym : Option String) (st : MonitorState)
    (h : (alertKeys st.alerts).Nodup) :
    (alertKeys (check_token contract mcap sym st).alerts).Nodup := by
  cases mcap with
  | none => simpa [check_token] using h
  | some current =>
    by_cases hcur : current ≤ 0
    · simpa [check_token, if_pos hcur] using h
    · cases hdm : contract.detected_mcap with
      | none => simpa [check_token, if_neg hcur, hdm] using h
      | some entry =>
        simp only [check_token, if_neg hcur, hdm]
        exact foldl_checkThreshold_nodup contract sym entry current (current / entry) true
          DUMP_THRESHOLDS _
          (foldl_checkThreshold_nodup contract sym entry current (current / entry) false
            PUMP_THRESHOLDS st h)

/-- **C3.** Across any interleaving of monitor token checks — any number of
cycles — and process restarts (which wipe the in-memory cache but not the
persisted alerts), the persisted alert table never holds two rows for the same
(address, threshold) pair: every creation is guarded by the persisted
existence check, so the in-memory cache is never the sole basis for creating
an alert. -/
theorem price_alert_at_most_one (evs : List MonitorEvent) (st : MonitorState)
    (h : (alertKeys st.alerts).Nodup) :
    (alertKeys (runEvents st evs).alerts).Nodup := by
  induction evs generalizing st with
  | nil => exact h
  | cons ev evs ih =>
    rw [runEvents, List.foldl_cons]
    cases ev with
    | check contract mcap sym =>
      exact ih _ (check_token_nodup contract mcap sym st h)
    | restart => exact ih _ h

/-- Witness for `price_alert_at_most_one`: two checks of the same token at the
same value separated by a restart, starting from an empty store. -/
theorem price_alert_at_most_one_witness :
    (alertKeys (MonitorState.mk [] []).alerts).Nodup ∧
    (alertKeys (runEvents (MonitorState.mk [] [])
      [MonitorEvent.check MessageHandler.sampleRow (some 25000) none,
       MonitorEvent.restart,
       MonitorEvent.check MessageHandler.sampleRow (some 25000) none]).alerts).Nodup :=
  ⟨by decide,
    price_alert_at_most_one
      [MonitorEvent.check MessageHandler.sampleRow (some 25000) none,
       MonitorEvent.restart,
       MonitorEvent.check MessageHandler.sampleRow (some 25000) none]
      (MonitorState.mk [] []) (by decide)⟩

theorem checkThreshold_step (contract : TrackedContract) (tok : Option String)
    (entry current multiplier : ℚ) (is_dump : Bool) (st : MonitorState) (t : ℚ) :
    alertKeys (checkThreshold contract tok entry current multiplier is_dump st t).alerts =
      alertKeys st.alerts ++
        (if condB is_dump multiplier t &&
            decide (¬Triggered st contract.contract_address t) then
          [(contract.contract_address, t)] else []) ∧
    cacheGet (checkThreshold contract tok entry current multiplier
        is_dump st t).checked_thresholds contract.contract_address =
      cacheGet st.checked_thresholds contract.contract_address ++
        (if condB is_dump multiplier t &&
            decide (t ∉ cacheGet st.checked_thresholds contract.contract_address) then
          [t] else []) := by
  rw [checkThreshold]
  by_cases hcond : condB is_dump multiplier t = true
  · rw [if_pos hcond]
    by_cases hcache : t ∈ cacheGet st.checked_thresholds contract.contract_address
    · rw [if_pos hcache]
      have htrig : Triggered st contract.contract_address t := Or.inr hcache
      constructor
      · have hb1 : (condB is_dump multiplier t &&
            decide (¬Triggered st contract.contract_address t)) = false := by
          simp [htrig]
        rw [hb1]; simp
      · have hb2 : (condB is_dump multiplier t &&
            decide (t ∉ cacheGet st.checked_thresholds contract.contract_address)) = false := by
          simp [hcache]
        rw [hb2]; simp
    · rw [if_neg hcache]
      by_cases hex : exists_for_threshold st.alerts contract.contract_address t = true
      · rw [if_pos hex]
        have htrig : Triggered st contract.contract_address t :=
          Or.inl ((exists_for_threshold_iff _ _ _).mp hex)
        constructor
        · have hb1 : (condB is_dump multiplier t &&
              decide (¬Triggered st contract.contract_address t)) = false := by
            simp [htrig]
          rw [hb1]; simp
        · have hb2 : (condB is_dump multiplier t &&
              decide (t ∉ cacheGet st.checked_thresholds contract.contract_address)) = true := by
            simp [hcond, hcache]
          rw [hb2, if_pos rfl]
          exact cacheGet_cacheAppend_same st.checked_thresholds contract.contract_address t
      · rw [if_neg hex]
        have hnm : (contract.contract_address, t) ∉ alertKeys st.alerts :=
          fun hm => hex ((exists_for_threshold_iff _ _ _).mpr hm)
        have htrig : ¬Triggered st contract.contract_address t := by
          rintro (h | h)
          · exact hnm h
          · exact hcache h
        constructor
        · have hb1 : (condB is_dump multiplier t &&
              decide (¬Triggered st contract.contract_address t)) = true := by
            simp [hcond, htrig]
          rw [hb1, if_pos rfl]
          simp [alertKeys, List.map_append]
        · have hb2 : (condB is_dump multiplier t &&
              decide (t ∉ cacheGet st.checked_thresholds contract.contract_address)) = true := by
            simp [hcond, hcache]
          rw [hb2, if_pos rfl]
          exact cacheGet_cacheAppend_same st.checked_thresholds contract.contract_address t
  · have hcond' : condB is_dump multiplier t = false := by simpa using hcond
    rw [if_neg hcond]
    constructor
    · rw [hcond']; simp
    · rw [hcond']; simp

theorem foldl_checkThreshold_spec (contract : TrackedContract) (tok : Option String)
    (entry current multiplier : ℚ) (is_dump : Bool) :
    ∀ ts : List ℚ, ts.Nodup → ∀ st : MonitorState,
      alertKeys ((ts.foldl (checkThreshold contract tok entry current multiplier is_dump)
          st).alerts) =
        alertKeys st.alerts ++
          (ts.filter (fun x => condB is_dump multiplier x &&
            decide (¬Triggered st contract.contract_address x))).map
            (fun x => (contract.contract_address, x)) ∧
      cacheGet ((ts.foldl (checkThreshold contract tok entry current multiplier is_dump)
          st).checked_thresholds) contract.contract_address =
        cacheGet st.checked_thresholds contract.contract_address ++
          ts.filter (fun x => condB is_dump multiplier x &&
            decide (x ∉ cacheGet st.checked_thresholds contract.contract_address)) := by
  intro ts
  induction ts with
  | nil => intro _ st; constructor <;> simp [List.foldl_nil]
  | cons t ts ih =>
    intro hnd st
    obtain ⟨hnotin, hnd'⟩ := List.nodup_cons.mp hnd
    obtain ⟨hs1, hs2⟩ := checkThreshold_step contract tok entry current multiplier is_dump st t
    obtain ⟨hi1, hi2⟩ :=
      ih hnd' (checkThreshold contract tok entry current multiplier is_dump st t)
    rw [List.foldl_cons]
    have hkey : ∀ t' : ℚ, t' ≠ t →
        ((contract.contract_address, t') ∈ alertKeys
            (checkThreshold contract tok entry current multiplier is_dump st t).alerts ↔
          (contract.contract_address, t') ∈ alertKeys st.alerts) := by
      intro t' hne
      rw [hs1, List.mem_append]
      constructor
      · rintro (h | h)
        · exact h
        · exfalso
          by_cases hb : (condB is_dump multiplier t &&
              decide (¬Triggered st contract.contract_address t)) = true
          · rw [if_pos hb] at h
            simp only [List.mem_singleton, Prod.mk.injEq] at h
            exact hne h.2
          · rw [if_neg hb] at h
            cases h
      · exact Or.inl
    have hcmem : ∀ t' : ℚ, t' ≠ t →
        (t' ∈ cacheGet (checkThreshold contract tok entry current multiplier
            is_dump st t).checked_thresholds contract.contract_address ↔
          t' ∈ cacheGet st.checked_thresholds contract.contract_address) := by
      intro t' hne
      rw [hs2, List.mem_append]
      constructor
      · rintro (h | h)
        · exact h
        · exfalso
          by_cases hb : (condB is_dump multiplier t &&
              decide (t ∉ cacheGet st.checked_thresholds contract.contract_address)) = true
          · rw [if_pos hb] at h
            simp only [List.mem_singleton] at h
            exact hne h
          · rw [if_neg hb] at h
            cases h
      · exact Or.inl
    have htrig : ∀ t' : ℚ, t' ≠ t →
        (Triggered (checkThreshold contract tok entry current multiplier is_dump st t)
            contract.contract_address t' ↔
          Triggered st contract.contract_address t') := by
      intro t' hne
      rw [Triggered, Triggered]
      exact or_congr (hkey t' hne) (hcmem t' hne)
    constructor
    · rw [hi1, hs1, List.filter_cons]
      have hfc : ts.filter (fun x => condB is_dump multiplier x &&
          decide (¬Triggered (checkThreshold contract tok entry current multiplier is_dump
            st t) contract.contract_address x)) =
        ts.filter (fun x => condB is_dump multiplier x &&
          decide (¬Triggered st contract.contract_address x)) := by
        apply List.filter_congr
        intro x hx
        have hne : x ≠ t := fun he => hnotin (he ▸ hx)
        have hiff := htrig x hne
        congr 1
        exact decide_eq_decide.mpr (not_congr hiff)
      rw [hfc]
      by_cases hb : (condB is_dump multiplier t &&
          decide (¬Triggered st contract.contract_address t)) = true
      · rw [if_pos hb, if_pos hb]
        simp [List.append_assoc]
      · rw [if_neg hb, if_neg hb]
        simp
    · rw [hi2]
      have hfc : ts.filter (fun x => condB is_dump multiplier x &&
          decide (x ∉ cacheGet (checkThreshold contract tok entry current multiplier is_dump
            st t).checked_thresholds contract.contract_address)) =
        ts.filter (fun x => condB is_dump multiplier x &&
          decide (x ∉ cacheGet st.checked_thresholds contract.contract_address)) := by
        apply List.filter_congr
        intro x hx
        have hne : x ≠ t := fun he => hnotin (he ▸ hx)
        have hiff := hcmem x hne
        congr 1
        exact decide_eq_decide.mpr (not_congr hiff)
      rw [hfc, hs2, List.filter_cons]
      by_cases hb : (condB is_dump multiplier t &&
          decide (t ∉ cacheGet st.checked_thresholds contract.contract_address)) = true
      · rw [if_pos hb, if_pos hb]
        simp [List.append_assoc]
      · rw [if_neg hb, if_neg hb]
        simp

theorem condB_false_eq (m t : ℚ) : condB false m t = decide (m ≥ t) := rfl

theorem condB_true_eq (m t : ℚ) : condB true m t = decide (m ≤ t) := rfl

theorem foldl_checkThreshold_id (contract : TrackedContract) (tok : Option String)
    (entry current multiplier : ℚ) (is_dump : Bool) :
    ∀ (ts : List ℚ) (st : MonitorState),
      (∀ t ∈ ts, condB is_dump multiplier t = true →
        t ∈ cacheGet st.checked_thresholds contract.contract_address) →
      ts.foldl (checkThreshold contract tok entry current multiplier is_dump) st = st := by
  intro ts
  induction ts with
  | nil => intro st _; rfl
  | cons t ts ih =>
    intro st h
    rw [List.foldl_cons]
    have hstep : checkThreshold contract tok entry current multiplier is_dump st t = st := by
      rw [checkThreshold]
      by_cases hcond : condB is_dump multiplier t = true
      · rw [if_pos hcond, if_pos (h t (List.mem_cons_self _ _) hcond)]
      · rw [if_neg hcond]
    rw [hstep]
    exact ih st (fun t' ht' hc => h t' (List.mem_cons_of_mem _ ht') hc)

theorem check_token_eq (contract : TrackedContract) (current entry : ℚ)
    (sym : Option String) (st : MonitorState)
    (hdm : contract.detected_mcap = some entry) (hcur : ¬ current ≤ 0) :
    check_token contract (some current) sym st =
      DUMP_THRESHOLDS.foldl
        (checkThreshold contract sym entry current (current / entry) true)
        (PUMP_THRESHOLDS.foldl
          (checkThreshold contract sym entry current (current / entry) false) st) := by
  simp only [check_token, if_neg hcur, hdm]

/-- **C4.** In one `_check_token` pass for a contract with entry value
`entry > 0` and fetched current value `current > 0` (multiplier
`m = current / entry`): the persisted alert keys gain exactly one alert for
every pump threshold `t` with `m ≥ t` that was not already triggered — each
such threshold gets its own alert, not only the extreme one — and one for
every dump threshold `t` with `m ≤ t` not already triggered, in list order;
and a second pass at the unchanged value is a no-op (zero new alerts). -/
theorem check_token_thresholds (contract : TrackedContract) (token_symbol : Option String)
    (entry current : ℚ) (st : MonitorState)
    (hdm : contract.detected_mcap = some entry)
    (hent : 0 < entry) (hcur : 0 < current) :
    (alertKeys (check_token contract (some current) token_symbol st).alerts =
      alertKeys st.alerts
        ++ (PUMP_THRESHOLDS.filter (fun t => decide (current / entry ≥ t) &&
              decide (¬Triggered st contract.contract_address t))).map
              (fun t => (contract.contract_address, t))
        ++ (DUMP_THRESHOLDS.filter (fun t => decide (current / entry ≤ t) &&
              decide (¬Triggered st contract.contract_address t))).map
              (fun t => (contract.contract_address, t))) ∧
    (∀ t ∈ PUMP_THRESHOLDS, current / entry ≥ t →
      ¬Triggered st contract.contract_address t →
      (contract.contract_address, t) ∈
        alertKeys (check_token contract (some current) token_symbol st).alerts) ∧
    (∀ t ∈ DUMP_THRESHOLDS, current / entry ≤ t →
      ¬Triggered st contract.contract_address t →
      (contract.contract_address, t) ∈
        alertKeys (check_token contract (some current) token_symbol st).alerts) ∧
    check_token contract (some current) token_symbol
        (check_token contract (some current) token_symbol st) =
      check_token contract (some current) token_symbol st := by
  have hcur' : ¬ current ≤ 0 := not_le.mpr hcur
  have hPn : PUMP_THRESHOLDS.Nodup := by
    norm_num [PUMP_THRESHOLDS, List.nodup_cons]
  have hDn : DUMP_THRESHOLDS.Nodup := by
    norm_num [DUMP_THRESHOLDS, List.nodup_cons]
  have hdisj : ∀ t ∈ DUMP_THRESHOLDS, t ∉ PUMP_THRESHOLDS := by
    norm_num [PUMP_THRESHOLDS, DUMP_THRESHOLDS]
  obtain ⟨hP1, hP2⟩ := foldl_checkThreshold_spec contract token_symbol entry current
    (current / entry) false PUMP_THRESHOLDS hPn st
  simp only [condB_false_eq] at hP1 hP2
  obtain ⟨hD1, hD2⟩ := foldl_checkThreshold_spec contract token_symbol entry current
    (current / entry) true DUMP_THRESHOLDS hDn
    (PUMP_THRESHOLDS.foldl
      (checkThreshold contract token_symbol entry current (current / entry) false) st)
  simp only [condB_true_eq] at hD1 hD2
  have hdumpmem : ∀ t ∈ DUMP_THRESHOLDS,
      ((contract.contract_address, t) ∈ alertKeys
          ((PUMP_THRESHOLDS.foldl (checkThreshold contract token_symbol entry current
            (current / entry) false) st).alerts) ↔
        (contract.contract_address, t) ∈ alertKeys st.alerts) := by
    intro t ht
    rw [hP1, List.mem_append]
    constructor
    · rintro (h | h)
      · exact h
      · exfalso
        rw [List.mem_map] at h
        obtain ⟨x, hx, hxe⟩ := h
        rw [Prod.mk.injEq] at hxe
        have hxP : x ∈ PUMP_THRESHOLDS := (List.mem_filter.mp hx).1
        exact hdisj t ht (hxe.2 ▸ hxP)
    · exact Or.inl
  have hdumpcache : ∀ t ∈ DUMP_THRESHOLDS,
      (t ∈ cacheGet (PUMP_THRESHOLDS.foldl (checkThreshold contract token_symbol entry
          current (current / entry) false) st).checked_thresholds
          contract.contract_address ↔
        t ∈ cacheGet st.checked_thresholds contract.contract_address) := by
    intro t ht
    rw [hP2, List.mem_append]
    constructor
    · rintro (h | h)
      · exact h
      · exact absurd (List.mem_filter.mp h).1 (hdisj t ht)
    · exact Or.inl
  have hdumptrig : ∀ t ∈ DUMP_THRESHOLDS,
      (Triggered (PUMP_THRESHOLDS.foldl (checkThreshold contract token_symbol entry
          current (current / entry) false) st) contract.contract_address t ↔
        Triggered st contract.contract_address t) := by
    intro t ht
    rw [Triggered, Triggered]
    exact or_congr (hdumpmem t ht) (hdumpcache t ht)
  have hDf1 : DUMP_THRESHOLDS.filter (fun x => decide (current / entry ≤ x) &&
      decide (¬Triggered (PUMP_THRESHOLDS.foldl (checkThreshold contract token_symbol
        entry current (current / entry) false) st) contract.contract_address x)) =
    DUMP_THRESHOLDS.filter (fun x => decide (current / entry ≤ x) &&
      decide (¬Triggered st contract.contract_address x)) := by
    apply List.filter_congr
    intro x hx
    congr 1
    exact decide_eq_decide.mpr (not_congr (hdumptrig x hx))
  have hDf2 : DUMP_THRESHOLDS.filter (fun x => decide (current / entry ≤ x) &&
      decide (x ∉ cacheGet (PUMP_THRESHOLDS.foldl (checkThreshold contract token_symbol
        entry current (current / entry) false) st).checked_thresholds
        contract.contract_address)) =
    DUMP_THRESHOLDS.filter (fun x => decide (current / entry ≤ x) &&
      decide (x ∉ cacheGet st.checked_thresholds contract.contract_address)) := by
    apply List.filter_congr
    intro x hx
    congr 1
    exact decide_eq_decide.mpr (not_congr (hdumpcache x hx))
  rw [hDf1] at hD1
  rw [hDf2] at hD2
  have hct := check_token_eq contract current entry token_symbol st hdm hcur'
  have hkeyseq : alertKeys (check_token contract (some current) token_symbol st).alerts =
      alertKeys st.alerts
        ++ (PUMP_THRESHOLDS.filter (fun t => decide (current / entry ≥ t) &&
              decide (¬Triggered st contract.contract_address t))).map
              (fun t => (contract.contract_address, t))
        ++ (DUMP_THRESHOLDS.filter (fun t => decide (current / entry ≤ t) &&
              decide (¬Triggered st contract.contract_address t))).map
              (fun t => (contract.contract_address, t)) := by
    rw [hct, hD1, hP1]
  have hcache' : cacheGet (check_token contract (some current) token_symbol
      st).checked_thresholds contract.contract_address =
      cacheGet st.checked_thresholds contract.contract_address
        ++ PUMP_THRESHOLDS.filter (fun t => decide (current / entry ≥ t) &&
            decide (t ∉ cacheGet st.checked_thresholds contract.contract_address))
        ++ DUMP_THRESHOLDS.filter (fun t => decide (current / entry ≤ t) &&
            decide (t ∉ cacheGet st.checked_thresholds contract.contract_address)) := by
    rw [hct, hD2, hP2]
  refine ⟨hkeyseq, ?_, ?_, ?_⟩
  · intro t ht hge htr
    rw [hkeyseq]
    refine List.mem_append.mpr (Or.inl (List.mem_append.mpr (Or.inr ?_)))
    refine List.mem_map.mpr ⟨t, ?_, rfl⟩
    refine List.mem_filter.mpr ⟨ht, ?_⟩
    simp [hge, htr]
  · intro t ht hle htr
    rw [hkeyseq]
    refine List.mem_append.mpr (Or.inr ?_)
    refine List.mem_map.mpr ⟨t, ?_, rfl⟩
    refine List.mem_filter.mpr ⟨ht, ?_⟩
    simp [hle, htr]
  · have hsat : ∀ t : ℚ,
        ((t ∈ PUMP_THRESHOLDS ∧ current / entry ≥ t) ∨
          (t ∈ DUMP_THRESHOLDS ∧ current / entry ≤ t)) →
        t ∈ cacheGet (check_token contract (some current) token_symbol
          st).checked_thresholds contract.contract_address := by
      intro t h
      rw [hcache']
      rcases h with ⟨hm, hc⟩ | ⟨hm, hc⟩
      · by_cases hin : t ∈ cacheGet st.checked_thresholds contract.contract_address
        · exact List.mem_append.mpr (Or.inl (List.mem_append.mpr (Or.inl hin)))
        · refine List.mem_append.mpr (Or.inl (List.mem_append.mpr (Or.inr ?_)))
          refine List.mem_filter.mpr ⟨hm, ?_⟩
          simp [hc, hin]
      · by_cases hin : t ∈ cacheGet st.checked_thresholds contract.contract_address
        · exact List.mem_append.mpr (Or.inl (List.mem_append.mpr (Or.inl hin)))
        · refine List.mem_append.mpr (Or.inr ?_)
          refine List.mem_filter.mpr ⟨hm, ?_⟩
          simp [hc, hin]
    have hid1 : PUMP_THRESHOLDS.foldl (checkThreshold contract token_symbol entry current
        (current / entry) false)
        (check_token contract (some current) token_symbol st) =
        check_token contract (some current) token_symbol st := by
      apply foldl_checkThreshold_id
      intro t ht hc
      rw [condB_false_eq, decide_eq_true_eq] at hc
      exact hsat t (Or.inl ⟨ht, hc⟩)
    have hid2 : DUMP_THRESHOLDS.foldl (checkThreshold contract token_symbol entry current
        (current / entry) true)
        (check_token contract (some current) token_symbol st) =
        check_token contract (some current) token_symbol st := by
      apply foldl_checkThreshold_id
      intro t ht hc
      rw [condB_true_eq, decide_eq_true_eq] at hc
      exact hsat t (Or.inr ⟨ht, hc⟩)
    rw [check_token_eq contract current entry token_symbol
      (check_token contract (some current) token_symbol st) hdm hcur', hid1, hid2]

/-- Witness for `check_token_thresholds`: entry 10000, current 25000
(multiplier 2.5) from an empty store creates exactly the alerts for
thresholds 1.25, 1.5, 2.0 — none for 5.0, 10.0 or the dump thresholds — and a
second pass at the unchanged value changes nothing. -/
theorem check_token_thresholds_witness :
    ((0 : ℚ) < 10000 ∧ (0 : ℚ) < 25000 ∧
      scenarioContract.detected_mcap = some 10000) ∧
    alertKeys (check_token scenarioContract (some 25000) none
        (MonitorState.mk [] [])).alerts =
      [(MessageHandler.sampleAddr, 1.25), (MessageHandler.sampleAddr, 1.5),
       (MessageHandler.sampleAddr, 2.0)] ∧
    check_token scenarioContract (some 25000) none
        (check_token scenarioContract (some 25000) none (MonitorState.mk [] [])) =
      check_token scenarioContract (some 25000) none (MonitorState.mk [] []) := by
  have h := check_token_thresholds scenarioContract none 10000 25000
    (MonitorState.mk [] []) rfl (by norm_num) (by norm_num)
  refine ⟨⟨by norm_num, by norm_num, rfl⟩, ?_, h.2.2.2⟩
  rw [h.1]
  have htrig : ∀ t : ℚ, ¬ Triggered (MonitorState.mk [] [])
      MessageHandler.sampleAddr t := by
    intro t
    rintro (hm | hm) <;> simp [alertKeys, cacheGet] at hm
  have haddr : scenarioContract.contract_address = MessageHandler.sampleAddr := rfl
  simp only [alertKeys, List.map_nil, List.nil_append, PUMP_THRESHOLDS, DUMP_THRESHOLDS,
    haddr]
  norm_num [List.filter_cons, htrig, haddr]

end PriceMonitor

/-! ## Claims about the score calculator -/

theorem calculate_channel_credibility_floor (total successful : ℕ) (ht : total ≠ 0) :
    ⌊((successful : ℚ) / (total : ℚ)) * 100⌋ = ((100 * successful) / total : ℕ) := by
  have hacc : ((successful : ℚ) / (total : ℚ)) * 100 =
      ((100 * successful : ℕ) : ℚ) / ((total : ℕ) : ℚ) := by
    push_cast
    ring
  rw [hacc]
  exact_mod_cast Rat.floor_natCast_div_natCast (100 * successful) total

/-- Counterexample to **C2** as stated: at (total, successful) = (3, 2) the
code returns 66 — the `int()` truncation of 66.66… — while the claimed
`round(100 * successful / total)` is 67. -/
theorem calculate_channel_credibility_counterexample :
    ScoreCalculator.calculate_channel_credibility 3 2 = 66 ∧
      round ((100 * 2 : ℚ) / 3) = 67 := by
  constructor
  · simp only [ScoreCalculator.calculate_channel_credibility]
    rw [if_neg (by norm_num)]
    rw [calculate_channel_credibility_floor 3 2 (by norm_num)]
    norm_num
  · have h1 : (100 * 2 : ℚ) / 3 + 1 / 2 = ((403 : ℕ) : ℚ) / ((6 : ℕ) : ℚ) := by
      push_cast
      norm_num
    rw [round_eq, h1, Rat.floor_natCast_div_natCast]
    norm_num

/-- **C2 (amended).** For every (total, successful) with successful ≤ total
the source-credibility function returns the integer **truncation**
⌊100·successful/total⌋ — not the rounding the spec claims — when total > 0
(modelling the Python float arithmetic as exact rationals; `int()` on the
non-negative quotient is floor), and the default 50 when total = 0; the
result is always an integer in [0, 100]; and the model-layer
`TrackedChannel.calculate_credibility` agrees with the calculator despite its
differently-ordered clamps. -/
theorem calculate_channel_credibility_spec (total successful : ℕ)
    (h : successful ≤ total) :
    (total = 0 → ScoreCalculator.calculate_channel_credibility total successful = 50) ∧
    (0 < total → ScoreCalculator.calculate_channel_credibility total successful =
      ((100 * successful) / total : ℕ)) ∧
    (0 ≤ ScoreCalculator.calculate_channel_credibility total successful ∧
      ScoreCalculator.calculate_channel_credibility total successful ≤ 100) ∧
    TrackedChannel.calculate_credibility total successful =
      ScoreCalculator.calculate_channel_credibility total successful := by
  refine ⟨?_, ?_, ?_, ?_⟩
  · intro h0
    simp only [ScoreCalculator.calculate_channel_credibility, if_pos h0]
  · intro h0
    have ht : total ≠ 0 := h0.ne'
    simp only [ScoreCalculator.calculate_channel_credibility, if_neg ht,
      calculate_channel_credibility_floor total successful ht]
    have h100 : ((100 * successful) / total : ℕ) ≤ 100 := by
      have hle : 100 * successful ≤ 100 * total := Nat.mul_le_mul_left 100 h
      have hd : (100 * successful) / total ≤ (100 * total) / total :=
        Nat.div_le_div_right hle
      rw [Nat.mul_div_cancel 100 h0] at hd
      exact hd
    have hk0 : (0 : ℤ) ≤ (((100 * successful) / total : ℕ) : ℤ) := Int.natCast_nonneg _
    have hk100 : ((((100 * successful) / total : ℕ)) : ℤ) ≤ 100 := by exact_mod_cast h100
    rw [min_eq_right hk100, max_eq_right hk0]
  · simp only [ScoreCalculator.calculate_channel_credibility]
    split
    · omega
    · omega
  · by_cases h0 : total = 0
    · simp [TrackedChannel.calculate_credibility,
        ScoreCalculator.calculate_channel_credibility, h0]
    · simp only [TrackedChannel.calculate_credibility,
        ScoreCalculator.calculate_channel_credibility, if_neg h0]
      omega

/-- Witness for `calculate_channel_credibility_spec` at (total, successful)
= (4, 3): credibility 75. -/
theorem calculate_channel_credibility_spec_witness :
    (3 ≤ 4) ∧
    (0 < 4 → ScoreCalculator.calculate_channel_credibility 4 3 =
      ((100 * 3) / 4 : ℕ)) :=
  ⟨by norm_num, (calculate_channel_credibility_spec 4 3 (by norm_num)).2.1⟩

/-- **C5.** For every integer input pair the score is exactly the clamped
base-plus-bonuses formula and the risk tier boundaries are exact at 40 and
70 (HIGH below 40, MEDIUM in [40, 70), LOW at and above 70).  Determinism is
immediate: `calculate` is a pure function of its two arguments. -/
theorem calculate_spec (first_seen_delta_seconds channel_credibility : ℤ) :
    (ScoreCalculator.calculate first_seen_delta_seconds channel_credibility).score =
      max 0 (min 100 (50 + (if first_seen_delta_seconds < 60 then 10 else 0) +
        (if channel_credibility > 70 then 10 else 0))) ∧
    ((ScoreCalculator.calculate first_seen_delta_seconds channel_credibility).risk_level =
        "HIGH" ↔
      (ScoreCalculator.calculate first_seen_delta_seconds channel_credibility).score < 40) ∧
    ((ScoreCalculator.calculate first_seen_delta_seconds channel_credibility).risk_level =
        "MEDIUM" ↔
      (40 ≤ (ScoreCalculator.calculate first_seen_delta_seconds channel_credibility).score ∧
        (ScoreCalculator.calculate first_seen_delta_seconds channel_credibility).score < 70)) ∧
    ((ScoreCalculator.calculate first_seen_delta_seconds channel_credibility).risk_level =
        "LOW" ↔
      70 ≤ (ScoreCalculator.calculate first_seen_delta_seconds channel_credibility).score) := by
  by_cases h1 : first_seen_delta_seconds < 60 <;> by_cases h2 : channel_credibility > 70 <;>
    simp only [ScoreCalculator.calculate, ScoreCalculator.calculate_risk_level,
      ScoreCalculator.BASE_SCORE, ScoreCalculator.EARLY_DISCOVERY_BONUS,
      ScoreCalculator.EARLY_DISCOVERY_THRESHOLD_SECONDS, ScoreCalculator.CREDIBILITY_BONUS,
      ScoreCalculator.CREDIBILITY_THRESHOLD, ScoreCalculator.HIGH_RISK_THRESHOLD,
      ScoreCalculator.MEDIUM_RISK_THRESHOLD, h1, h2, if_true, if_false] <;>
    (norm_num <;> decide)

/-- **C10.** Through `calculate` the score is always one of {50, 60, 70} —
the clamp never engages — so every freshly scored address has score ≥ 50 and
the "HIGH" risk tier is unreachable: the result is always MEDIUM or LOW. -/
theorem calculate_score_range (first_seen_delta_seconds channel_credibility : ℤ) :
    ((ScoreCalculator.calculate first_seen_delta_seconds channel_credibility).score = 50 ∨
      (ScoreCalculator.calculate first_seen_delta_seconds channel_credibility).score = 60 ∨
      (ScoreCalculator.calculate first_seen_delta_seconds channel_credibility).score = 70) ∧
    50 ≤ (ScoreCalculator.calculate first_seen_delta_seconds channel_credibility).score ∧
    (ScoreCalculator.calculate first_seen_delta_seconds channel_credibility).risk_level ≠
      "HIGH" ∧
    ((ScoreCalculator.calculate first_seen_delta_seconds channel_credibility).risk_level =
        "MEDIUM" ∨
      (ScoreCalculator.calculate first_seen_delta_seconds channel_credibility).risk_level =
        "LOW") := by
  by_cases h1 : first_seen_delta_seconds < 60 <;> by_cases h2 : channel_credibility > 70 <;>
    simp only [ScoreCalculator.calculate, ScoreCalculator.calculate_risk_level,
      ScoreCalculator.BASE_SCORE, ScoreCalculator.EARLY_DISCOVERY_BONUS,
      ScoreCalculator.EARLY_DISCOVERY_THRESHOLD_SECONDS, ScoreCalculator.CREDIBILITY_BONUS,
      ScoreCalculator.CREDIBILITY_THRESHOLD, ScoreCalculator.HIGH_RISK_THRESHOLD,
      ScoreCalculator.MEDIUM_RISK_THRESHOLD, h1, h2, if_true, if_false] <;>
    (norm_num <;> decide)

end TelegramListener
